import Mathlib

/-!
# Verification of the synapse.github.io simulation modules

Shallow embedding of the client-side simulation cluster:

* `assets/js/neuromorphic/plasticity.js` — synaptic plasticity rules
  (Hebbian, BCM, Oja, STDP), homeostatic scaling and reward modulation;
* `assets/js/neuromorphic/engine.js` — synapse formation and pruning
  (`formSynapse`, `pruneWeakestSynapse`);
* `assets/js/quantum/neural-interface.js` (QNI) — quantum node registry,
  observation, measurement, wavefunction collapse;
* `assets/js/quantum/entanglement.js` — Bell-state entanglement manager;
* `assets/js/quantum/decoherence.js` — decoherence events;
* `assets/js/holographic/wave-simulator.js` — split-step wavefunction
  integrator and the direct Fourier-transform fallback.

JavaScript numbers are modelled exactly: quantities that the code only
adds, multiplies and compares (amplitudes, weights, thresholds) are
rationals `ℚ`; quantities fed to transcendental functions (membrane
potentials in `exp`, phases involving `π`, the wave field) are reals `ℝ`
or complex `ℂ`.  A JavaScript method that can throw a `TypeError`
(property access on `undefined`) is embedded as an `Option`-returning
function, `none` being the thrown exception; a call of `Math.random()`
is a parameter (a boolean-valued or real-valued argument), so that a
statement quantifying over those parameters covers every random seed.
-/

namespace Synapse

/-! ## Synaptic plasticity (`plasticity.js`)

Every rule ends with `Math.max(0, Math.min(1, …))`; `clamp01` is that
combinator.  Activities enter the rules as
`Math.min(membranePotential, 1)`. -/

/-- `Math.max(0, Math.min(1, x))`, the final clamp of every plasticity
update in `plasticity.js`. -/
def clamp01 (x : ℝ) : ℝ :=
  max 0 (min 1 x)

/-- `SynapticPlasticity.applyHebbianRule` (plasticity.js 67–89): the
weight update `w + η·min(pre,1)·min(post,1)`, clamped. -/
def applyHebbianRule (learningRate pre post w : ℝ) : ℝ :=
  clamp01 (w + learningRate * (min pre 1 * min post 1))

/-- `SynapticPlasticity.applyBCMRule` (plasticity.js 91–124): sliding
threshold `θ = average·bcmThreshold`, update
`w + η·post·(post−θ)·pre`, clamped. -/
def applyBCMRule (learningRate average bcmThreshold pre post w : ℝ) : ℝ :=
  clamp01 (w + learningRate * min post 1 * (min post 1 - average * bcmThreshold) * min pre 1)

/-- `SynapticPlasticity.applyOjaRule` (plasticity.js 126–148): update
`w + η·(pre·post − w·post²)`, clamped. -/
def applyOjaRule (learningRate pre post w : ℝ) : ℝ :=
  clamp01 (w + learningRate * (min pre 1 * min post 1 - w * min post 1 * min post 1))

/-- `SynapticPlasticity.applySTDPRule` (plasticity.js 150–179):
`Δw = aPlus·e^(−Δt/τPlus)` when `Δt = tPost − tPre > 0`, otherwise
`−aMinus·e^(Δt/τMinus)`, with `τPlus = τMinus = 20`, `aPlus = 0.1`,
`aMinus = 0.12`; result clamped. -/
noncomputable def applySTDPRule (preTime postTime w : ℝ) : ℝ :=
  let deltaT := postTime - preTime
  let weightChange :=
    if 0 < deltaT then (0.1 : ℝ) * Real.exp (-deltaT / 20)
    else -(0.12 : ℝ) * Real.exp (deltaT / 20)
  clamp01 (w + weightChange)

/-- `SynapticPlasticity.scaleSynapse` (plasticity.js 222–233): the
multiplicative rescaling used by homeostatic plasticity
(`factor = 1 + (0.3 − average)·homeostasisRate`) and by dopaminergic
reward modulation (`factor = 1 + signal·dopamineModulation` or its
reciprocal), clamped. -/
def scaleSynapse (w factor : ℝ) : ℝ :=
  clamp01 (w * factor)

/-! ## Neuromorphic engine (`engine.js`)

`NeuromorphicEngine` keeps a `neuralNetwork : Map nodeId → neuron`; each
neuron owns a `synapses` set of postsynaptic ids (a JavaScript `Set`,
iterated in insertion order, modelled as a list) and a weight table
(`hebbianWeights`, modelled as a function `pre → post → weight`).
Weights are only ever added, multiplied and compared, so they are
rationals here. -/

/-- A neuron of `NeuromorphicEngine.registerNeuron` (engine.js 55–77);
only the fields the synapse-management claims touch are kept. -/
structure Neuron where
  synapses : List ℕ
  deriving Repr, DecidableEq

/-- The engine state used by `formSynapse`/`pruneWeakestSynapse`. -/
structure Engine where
  neurons : ℕ → Option Neuron
  weight : ℕ → ℕ → ℚ
  maxSynapses : ℕ

/-- The scan of `NeuromorphicEngine.pruneWeakestSynapse`
(engine.js 212–234): starting from `weakestId = null`, `minWeight = 1`,
take each synapse whose weight is strictly below the running minimum.
Returns the final `(weakestId, minWeight)` pair. -/
def weakestScan (w : ℕ → ℚ) (syns : List ℕ) : Option ℕ × ℚ :=
  syns.foldl (fun acc s => if w s < acc.2 then (some s, w s) else acc) (none, 1)

/-- `NeuromorphicEngine.pruneWeakestSynapse` (engine.js 212–234):
delete the scanned weakest synapse, if the scan found one
(`if (weakestId)`); the visual `removeSynapticConnection` is DOM-only. -/
def pruneWeakestSynapse (e : Engine) (nodeId : ℕ) : Engine :=
  match e.neurons nodeId with
  | none => e
  | some n =>
    match (weakestScan (e.weight nodeId) n.synapses).1 with
    | none => e
    | some weakestId =>
      { e with neurons :=
          (Function.update e.neurons nodeId
            (some { n with synapses := n.synapses.erase weakestId })) }

/-- `NeuromorphicEngine.formSynapse` (engine.js 184–210): reject
self-loops and unknown neurons; succeed without change if the synapse
exists; at capacity (`size >= maxSynapses`) call `pruneWeakestSynapse`
first; then insert `post` and record its weight.  Returns the
JavaScript boolean result together with the new state. -/
def formSynapse (e : Engine) (preId postId : ℕ) (initialWeight : ℚ) : Bool × Engine :=
  if preId = postId then (false, e)
  else
    match e.neurons preId, e.neurons postId with
    | some preN, some _ =>
      if postId ∈ preN.synapses then (true, e)
      else
        let e1 := if e.maxSynapses ≤ preN.synapses.length then pruneWeakestSynapse e preId else e
        match e1.neurons preId with
        | some preN1 =>
          (true,
            { e1 with
              neurons :=
                (Function.update e1.neurons preId
                  (some { preN1 with synapses := preN1.synapses ++ [postId] })),
              weight :=
                (fun a b =>
                  if a = preId ∧ b = postId then initialWeight else e1.weight a b) })
        | none => (true, e1)
    | _, _ => (false, e)

/-! ## Quantum node registry (`neural-interface.js`), entanglement
manager (`entanglement.js`) and decoherence events (`decoherence.js`)

A node's state object carries `spin`, `phase`, `superposition`; the
amplitude is initialised to `1.0` at registration and multiplied/
compared thereafter (modelled as `ℚ`), and `observationCount` is the
counter read by the decoherence monitor's Zeno factor (in the
JavaScript it is read from `node.state.observationCount`; nothing in
the repository ever writes it, which the claims below probe).
`Math.random() > 0.5` spin draws are modelled by a boolean stream
`bits : ℕ → Bool` consumed at increasing indices, so quantifying over
`bits` quantifies over every random seed.  `collapseWaveFunction`
recurses through the entanglement table with no termination guarantee
in the source, hence the explicit `fuel`; a `none` result means the
call never returns (in the browser: unbounded recursion). -/

inductive Spin where
  | up
  | down
  deriving Repr, DecidableEq

inductive BellState where
  | phiPlus
  | phiMinus
  | psiPlus
  | psiMinus
  deriving Repr, DecidableEq

/-- A quantum node's state (`registerQuantumNode` /
`generateQuantumState`, neural-interface.js 484–512). -/
structure QNode where
  spin : Spin
  phase : ℝ
  superposition : Bool
  amplitude : ℚ
  observationCount : ℕ

/-- The shared state of the quantum cluster: `QNI.quantumNodes` keyed
by id, `QNI.entanglements` (used by collapse propagation),
`QuantumEntanglement.entangledPairs` and `bellStates` (used by the
entanglement manager only), and the decoherence engine's
`interactionHistory` counts. -/
structure QSystem where
  nodes : ℕ → Option QNode
  qniEnt : ℕ → Option ℕ
  pairs : ℕ → Option ℕ
  bell : ℕ → Option BellState
  history : ℕ → ℕ

/-- The QNI options object (`observationThreshold` defaults to 0.85,
neural-interface.js 444–450). -/
structure QNIConfig where
  observationThreshold : ℚ := 85/100

def spinOf (st : QSystem) (id : ℕ) : Option Spin :=
  (st.nodes id).map (·.spin)

def phaseOf (st : QSystem) (id : ℕ) : Option ℝ :=
  (st.nodes id).map (·.phase)

def superpositionOf (st : QSystem) (id : ℕ) : Option Bool :=
  (st.nodes id).map (·.superposition)

def amplitudeOf (st : QSystem) (id : ℕ) : Option ℚ :=
  (st.nodes id).map (·.amplitude)

def obsCountOf (st : QSystem) (id : ℕ) : Option ℕ :=
  (st.nodes id).map (·.observationCount)

/-- Overwrite one entry of the node table (a mutation of the
`quantumNodes` map entry's state object). -/
def setNode (st : QSystem) (id : ℕ) (n : QNode) : QSystem :=
  { st with nodes := Function.update st.nodes id (some n) }

/-- The node written by one collapse step of `collapseWaveFunction`:
`superposition = false`, spin re-drawn from `Math.random() > 0.5`
(bit `k`). -/
def collapsedNode (bits : ℕ → Bool) (k : ℕ) (na : QNode) : QNode :=
  { na with superposition := false, spin := if bits k then Spin.up else Spin.down }

/-- `QNI.collapseWaveFunction` (neural-interface.js 595–612): an
unknown id returns silently; otherwise the node's `superposition` is
cleared and its spin re-drawn from `Math.random() > 0.5` (bit `k`),
then — with NO already-collapsed check — the entangled partner from
`QNI.entanglements` is collapsed recursively.  `fuel` bounds the
recursion depth; `none` = the source recursion does not terminate. -/
def collapseFuel (fuel : ℕ) (bits : ℕ → Bool) (k : ℕ) (st : QSystem) (id : ℕ) :
    Option (QSystem × ℕ) :=
  match fuel with
  | 0 => none
  | fuel + 1 =>
    match st.nodes id with
    | none => some (st, k)
    | some node =>
      let st1 := setNode st id (collapsedNode bits k node)
      match st.qniEnt id with
      | none => some (st1, k + 1)
      | some pid =>
        match st1.nodes pid with
        | none => some (st1, k + 1)
        | some _ => collapseFuel fuel bits (k + 1) st1 pid

/-- `QNI.handleObservation` (neural-interface.js 572–585): no-op on an
unknown or already-collapsed node; otherwise multiply the amplitude by
0.9 and collapse when the result is below `observationThreshold`
(`scheduleDecoherence` only arms a timer and changes no state). -/
def handleObservation (cfg : QNIConfig) (fuel : ℕ) (bits : ℕ → Bool)
    (st : QSystem) (id : ℕ) : Option QSystem :=
  match st.nodes id with
  | none => some st
  | some node =>
    if node.superposition then
      let node1 := { node with amplitude := node.amplitude * (9/10) }
      let st1 := setNode st id node1
      if node1.amplitude < cfg.observationThreshold then
        (collapseFuel fuel bits 0 st1 id).map Prod.fst
      else some st1
    else some st

/-- `QNI.handleMeasurement` (neural-interface.js 587–593): collapse,
then re-fetch the node and dispatch on `node.element` — which throws a
`TypeError` (here: `none`) when the id is unknown. -/
def handleMeasurement (fuel : ℕ) (bits : ℕ → Bool) (st : QSystem) (id : ℕ) :
    Option QSystem :=
  match collapseFuel fuel bits 0 st id with
  | none => none
  | some (st1, _) =>
    match st1.nodes id with
    | none => none
    | some _ => some st1

/-- The spin/phase quadruple `(spin1, spin2, phase1, phase2)` assigned
by the `switch (bellState)` of `QuantumEntanglement.applyBellState`
(entanglement.js 64–89); in every case `node1` gets spin `up`,
phase `0`. -/
noncomputable def bellAssignment : BellState → Spin × Spin × ℝ × ℝ
  | .phiPlus => (.up, .up, 0, 0)
  | .phiMinus => (.up, .up, 0, Real.pi)
  | .psiPlus => (.up, .down, 0, 0)
  | .psiMinus => (.up, .down, 0, Real.pi)

/-- Modelled from the spec's truth table, for comparison with the
code: `Φ+` same spin/same phase, `Φ-` same spin/opposite phase, `Ψ+`
opposite spin/same phase, `Ψ-` opposite spin/opposite phase
("opposite phase" realised as an offset of π). -/
def bellTruthTable (bell : BellState) (s1 s2 : Spin) (p1 p2 : ℝ) : Prop :=
  match bell with
  | .phiPlus => s1 = s2 ∧ p2 = p1
  | .phiMinus => s1 = s2 ∧ p2 = p1 + Real.pi
  | .psiPlus => s1 ≠ s2 ∧ p2 = p1
  | .psiMinus => s1 ≠ s2 ∧ p2 = p1 + Real.pi

/-- `QuantumEntanglement.applyBellState` (entanglement.js 59–96):
write the Bell-table spin/phase into both nodes, then set
`superposition = true` and `amplitude = 1.0` on both.  Looking up a
missing node would throw (`none`). -/
noncomputable def applyBellState (st : QSystem) (id1 id2 : ℕ) (bell : BellState) :
    Option QSystem :=
  match st.nodes id1, st.nodes id2 with
  | some n1, some n2 =>
    let a := bellAssignment bell
    let n1' := { n1 with spin := a.1, phase := a.2.2.1, superposition := true, amplitude := 1 }
    let n2' := { n2 with spin := a.2.1, phase := a.2.2.2, superposition := true, amplitude := 1 }
    some (setNode (setNode st id1 n1') id2 n2')
  | _, _ => none

/-- `QuantumEntanglement.createEntanglement` (entanglement.js 33–57):
fail only when an id is unregistered; otherwise tag both ids with the
Bell state, write the bidirectional `entangledPairs` mapping — with no
check whether either node is already entangled — and apply the Bell
assignment.  The visual connection is DOM-only. -/
noncomputable def createEntanglement (st : QSystem) (id1 id2 : ℕ) (bell : BellState) :
    Bool × QSystem :=
  match st.nodes id1, st.nodes id2 with
  | some _, some _ =>
    let st1 := { st with
      bell := Function.update (Function.update st.bell id1 (some bell)) id2 (some bell)
      pairs := Function.update (Function.update st.pairs id1 (some id2)) id2 (some id1) }
    (true, (applyBellState st1 id1 id2 bell).getD st1)
  | _, _ => (false, st)

/-- `QNI.entangleNodes` (neural-interface.js 514–532): replace both
states by a freshly generated one (partner phase shifted by π) and
write the bidirectional `QNI.entanglements` mapping used by collapse
propagation.  `genSpin`/`genPhase` stand for the `Math.random()` draws
of `generateQuantumState`. -/
noncomputable def entangleNodes (st : QSystem) (id1 id2 : ℕ) (genSpin : Spin) (genPhase : ℝ) :
    Bool × QSystem :=
  match st.nodes id1, st.nodes id2 with
  | some _, some _ =>
    let s1 : QNode :=
      { spin := genSpin, phase := genPhase, superposition := true
        amplitude := 1, observationCount := 0 }
    let s2 : QNode := { s1 with phase := genPhase + Real.pi }
    (true, { st with
      nodes := Function.update (Function.update st.nodes id1 (some s1)) id2 (some s2)
      qniEnt := Function.update (Function.update st.qniEnt id1 (some id2)) id2 (some id1) })
  | _, _ => (false, st)

/-- `QuantumEntanglement.breakEntanglement` (entanglement.js 203–222):
`false` when the id has no partner; otherwise drop both directions of
the pairing and both Bell tags.  The Bell-tag deletion dereferences
`quantumNodes.get(id).element`, which throws when either node is
unregistered (`none`). -/
def breakEntanglement (st : QSystem) (id : ℕ) : Option (Bool × QSystem) :=
  match st.pairs id with
  | none => some (false, st)
  | some pairedId =>
    match st.nodes id, st.nodes pairedId with
    | some _, some _ =>
      some (true, { st with
        pairs := Function.update (Function.update st.pairs id none) pairedId none
        bell := Function.update (Function.update st.bell id none) pairedId none })
    | _, _ => none

/-- `QuantumDecoherence.applyDecoherence` (decoherence.js 110–143):
unknown id returns silently; with probability `measurementBackaction`
(the `jump` draw) collapse at once; otherwise damp the phase by a
random offset `r ∈ (−π/8, π/8)` and the amplitude by 0.9, collapsing
anyway once the amplitude drops below 0.3 (rescheduling changes no
state).  Either branch then bumps the node's interaction history. -/
def applyDecoherence (fuel : ℕ) (bits : ℕ → Bool) (jump : Bool) (r : ℝ)
    (st : QSystem) (id : ℕ) : Option QSystem :=
  match st.nodes id with
  | none => some st
  | some node =>
    let afterMain : Option QSystem :=
      if jump then (collapseFuel fuel bits 0 st id).map Prod.fst
      else
        let node1 := { node with phase := node.phase + r, amplitude := node.amplitude * (9/10) }
        let st1 := setNode st id node1
        if node1.amplitude < 3/10 then (collapseFuel fuel bits 0 st1 id).map Prod.fst
        else some st1
    afterMain.map (fun s => { s with history := Function.update s.history id (s.history id + 1) })

/-- One core operation on the quantum cluster, with its own random
draws and recursion budget. -/
inductive QOp where
  | observe (id fuel : ℕ) (bits : ℕ → Bool)
  | measure (id fuel : ℕ) (bits : ℕ → Bool)
  | collapse (id fuel : ℕ) (bits : ℕ → Bool)
  | decohere (id : ℕ) (jump : Bool) (r : ℝ) (fuel : ℕ) (bits : ℕ → Bool)
  | breakE (id : ℕ)

def runOp (cfg : QNIConfig) (st : QSystem) : QOp → Option QSystem
  | .observe id fuel bits => handleObservation cfg fuel bits st id
  | .measure id fuel bits => handleMeasurement fuel bits st id
  | .collapse id fuel bits => (collapseFuel fuel bits 0 st id).map Prod.fst
  | .decohere id jump r fuel bits => applyDecoherence fuel bits jump r st id
  | .breakE id => (breakEntanglement st id).map Prod.snd

def runOps (cfg : QNIConfig) : List QOp → QSystem → Option QSystem
  | [], st => some st
  | op :: ops, st => (runOp cfg st op).bind (runOps cfg ops)

/-! ## Wavefunction solver (`wave-simulator.js`)

An N×N complex field: the interleaved `Float32Array` pair
`(psi[2i], psi[2i+1])` is one complex number, and the source's
`re·cosθ − im·sinθ / re·sinθ + im·cosθ` pairs are multiplication by
`exp(θ·I)`.  Exact real/complex arithmetic replaces floats. -/

/-- An N×N complex field, indexed `(row y, column x)` like the
row-major `psi` buffer. -/
abbrev Grid (N : ℕ) :=
  Fin N × Fin N → ℂ

/-- The index product `kx·x + ky·y` appearing in both transform
angles (`k = (ky, kx)`, `x = (y, x)` in row-major order). -/
def dotIdx {N : ℕ} (k x : Fin N × Fin N) : ℕ :=
  (k.2 : ℕ) * (x.2 : ℕ) + (k.1 : ℕ) * (x.1 : ℕ)

/-- The solver options used by one step (`resolution` is the `N`
index parameter). -/
structure WaveOptions where
  dt : ℝ
  dx : ℝ
  hbar : ℝ
  nonlinearity : ℝ

/-- One wavefunction instance (`createWavefunction`,
wave-simulator.js 148–176): the field and its potential buffer. -/
structure Wavefunction (N : ℕ) where
  psi : Grid N
  potential : Fin N × Fin N → ℝ

/-- The half-step position-space update of
`QuantumWaveSimulator.stepWavefunction` steps 1 and 5
(wave-simulator.js 275–293 and 321–335): add
`(nonlinear + potential)·dt/2` to each component. -/
noncomputable def halfStep (o : WaveOptions) (V : Fin N × Fin N → ℝ) (ψ : Grid N) : Grid N :=
  fun p =>
    let re := (ψ p).re
    let im := (ψ p).im
    let psi2 := re ^ 2 + im ^ 2
    let nonlinearRe := -o.nonlinearity * psi2 * im
    let nonlinearIm := o.nonlinearity * psi2 * re
    let potentialRe := V p * im / o.hbar
    let potentialIm := -V p * re / o.hbar
    ⟨re + (nonlinearRe + potentialRe) * o.dt / 2,
     im + (nonlinearIm + potentialIm) * o.dt / 2⟩

/-- Step 3 of `stepWavefunction` (wave-simulator.js 298–315): rotate
each momentum mode by `phase = −ħ·k²·dt`, the wavenumber read from the
grid index with wraparound (`kx > N/2` treated as negative). -/
noncomputable def kineticRotate (o : WaveOptions) (ks : Grid N) : Grid N :=
  fun k =>
    let kxAdjusted : ℤ := if (N : ℤ) < 2 * (k.2 : ℕ) then ((k.2 : ℕ) : ℤ) - N else (k.2 : ℕ)
    let kyAdjusted : ℤ := if (N : ℤ) < 2 * (k.1 : ℕ) then ((k.1 : ℕ) : ℤ) - N else (k.1 : ℕ)
    let k2 : ℝ := ((kxAdjusted ^ 2 + kyAdjusted ^ 2 : ℤ) : ℝ) / (N * o.dx) ^ 2
    let phase : ℝ := -o.hbar * k2 * o.dt
    let re := (ks k).re
    let im := (ks k).im
    ⟨re * Real.cos phase - im * Real.sin phase,
     re * Real.sin phase + im * Real.cos phase⟩

/-- `Σ (re² + im²)` over the grid, the accumulator of
`normalizeWavefunction` before the `dx²` factor. -/
noncomputable def normSumGrid (ψ : Grid N) : ℝ :=
  ∑ p : Fin N × Fin N, ((ψ p).re ^ 2 + (ψ p).im ^ 2)

/-- `QuantumWaveSimulator.normalizeWavefunction`
(wave-simulator.js 341–354): `norm = √(Σ(re²+im²)·dx·dx)`; when
`norm > 0` scale every component by `1/norm`. -/
noncomputable def normalizeWavefunction (o : WaveOptions) (ψ : Grid N) : Grid N :=
  let norm := Real.sqrt (normSumGrid ψ * o.dx * o.dx)
  if 0 < norm then fun p => (((1 / norm : ℝ) : ℂ) * ψ p) else ψ

/-- `QuantumWaveSimulator.stepWavefunction` (wave-simulator.js
267–339), parameterised by the forward/inverse transforms standing for
`this.fft.transform` / `this.fft.inverse`: half-step, to momentum
space, kinetic rotation, back, half-step, renormalize. -/
noncomputable def stepWavefunction (o : WaveOptions) (T Tinv : Grid N → Grid N)
    (wf : Wavefunction N) : Wavefunction N :=
  let psi1 := halfStep o wf.potential wf.psi
  let kSpace := kineticRotate o (T psi1)
  let psi2 := halfStep o wf.potential (Tinv kSpace)
  { wf with psi := normalizeWavefunction o psi2 }

/-- The forward angle `−2π·((kx·x + ky·y)/N)` of
`directFourierTransform`. -/
noncomputable def fwdAngle (N : ℕ) (k x : Fin N × Fin N) : ℝ :=
  -2 * Real.pi * ((dotIdx k x : ℕ) : ℝ) / N

/-- The inverse angle `+2π·((kx·x + ky·y)/N)` of
`inverseFourierTransform`. -/
noncomputable def invAngle (N : ℕ) (k x : Fin N × Fin N) : ℝ :=
  2 * Real.pi * ((dotIdx k x : ℕ) : ℝ) / N

/-- `QuantumWaveSimulator.directFourierTransform`
(wave-simulator.js 417–444): the O(N²)-per-mode summation fallback;
the source's `sumRe += re·cos θ − im·sin θ` / `sumIm += re·sin θ +
im·cos θ` accumulator is multiplication by `exp(θ·I)`; each output
component is divided by `N`. -/
noncomputable def directFourierTransform (N : ℕ) (data : Grid N) : Grid N :=
  fun k => (∑ x : Fin N × Fin N, data x * Complex.exp (fwdAngle N k x * Complex.I)) / N

/-- `QuantumWaveSimulator.inverseFourierTransform`
(wave-simulator.js 446–473): same summation with the opposite angle
and NO normalisation of the output. -/
noncomputable def inverseFourierTransform (N : ℕ) (data : Grid N) : Grid N :=
  fun x => ∑ k : Fin N × Fin N, data k * Complex.exp (invAngle N k x * Complex.I)

/-- `exp(2πi·m/N)`, the root-of-unity factor both transforms are built
from after fusing the source's `cos`/`sin` pairs into complex
multiplication. -/
noncomputable def eC (N : ℕ) (m : ℤ) : ℂ :=
  Complex.exp (2 * Real.pi * Complex.I * m / N)

/-! ## Concrete fixtures used by witnesses and counterexamples -/

/-- A freshly registered superposed node. -/
def nodeUp : QNode :=
  { spin := Spin.up, phase := 0, superposition := true, amplitude := 1, observationCount := 0 }

/-- A collapsed node. -/
def nodeCollapsed : QNode :=
  { nodeUp with superposition := false }

/-- A superposed node whose amplitude has decayed to 0.9. -/
def nodeDim : QNode :=
  { nodeUp with amplitude := 9/10 }

/-- Two registered superposed nodes `0`, `1`; no entanglements. -/
def sys2 : QSystem :=
  { nodes := fun n => if n = 0 then some nodeUp else if n = 1 then some nodeUp else none
    qniEnt := fun _ => none
    pairs := fun _ => none
    bell := fun _ => none
    history := fun _ => 0 }

/-- Like `sys2` but node `0` is already collapsed. -/
def sysC : QSystem :=
  { sys2 with nodes := fun n =>
      if n = 0 then some nodeCollapsed else if n = 1 then some nodeUp else none }

/-- Three registered nodes `0`, `1`, `2` where `0` and `2` are already
entangled partners in `entangledPairs`. -/
def sysTri : QSystem :=
  { sys2 with
    nodes := fun n => if n ≤ 2 then some nodeUp else none
    pairs := fun n => if n = 0 then some 2 else if n = 2 then some 0 else none }

/-- One registered node `0` with amplitude 0.9. -/
def sysDim : QSystem :=
  { sys2 with nodes := fun n => if n = 0 then some nodeDim else none }

/-- The default QNI options. -/
def cfg0 : QNIConfig :=
  {}

/-- Engine at `maxSynapses = 2`: neuron `0` with outgoing synapses
`[1, 2]`, every weight `1`. -/
def engAll1 : Engine :=
  { neurons := fun n =>
      if n = 0 then some { synapses := [1, 2] }
      else if n ≤ 3 then some { synapses := [] } else none
    weight := fun _ _ => 1
    maxSynapses := 2 }

/-- Like `engAll1` but the synapse `0 → 1` has weight 1/2. -/
def engGood : Engine :=
  { engAll1 with weight := fun a b => if a = 0 ∧ b = 1 then 1/2 else 1 }

/-- Trivial solver options: `dt = 0`, `dx = ħ = 1`, no nonlinearity. -/
def oW : WaveOptions :=
  { dt := 0, dx := 1, hbar := 1, nonlinearity := 0 }

/-- The constant-1 field on the 1×1 grid with zero potential. -/
noncomputable def wfW : Wavefunction 1 :=
  { psi := fun _ => 1, potential := fun _ => 0 }

/-- The 2×2 delta field: 1 at index `(0,0)`, 0 elsewhere. -/
noncomputable def psiDelta : Grid 2 :=
  fun p => if p = (0, 0) then 1 else 0

/-! # Theorems -/

theorem clamp01_nonneg (x : ℝ) : 0 ≤ clamp01 x :=
  le_max_left 0 (min 1 x)

theorem clamp01_le_one (x : ℝ) : clamp01 x ≤ 1 :=
  max_le (by norm_num) (min_le_left 1 x)

/-- **C3**: every plasticity rule (Hebbian, STDP, BCM, Oja) maps a
prior weight in [0,1] and arbitrary real pre/post activities and spike
times to a post-update weight in [0,1], and `scaleSynapse` (homeostatic
scaling, reward modulation) keeps every scaled weight in [0,1]: each
update ends in `Math.max(0, Math.min(1, …))`, so the bound holds for
any real update term. -/
theorem plasticity_rules_clamp_to_unit_interval
    (learningRate average bcmThreshold pre post w preTime postTime factor : ℝ)
    (_hw0 : 0 ≤ w) (_hw1 : w ≤ 1) :
    (0 ≤ applyHebbianRule learningRate pre post w ∧
      applyHebbianRule learningRate pre post w ≤ 1) ∧
    (0 ≤ applyBCMRule learningRate average bcmThreshold pre post w ∧
      applyBCMRule learningRate average bcmThreshold pre post w ≤ 1) ∧
    (0 ≤ applyOjaRule learningRate pre post w ∧
      applyOjaRule learningRate pre post w ≤ 1) ∧
    (0 ≤ applySTDPRule preTime postTime w ∧
      applySTDPRule preTime postTime w ≤ 1) ∧
    (0 ≤ scaleSynapse w factor ∧ scaleSynapse w factor ≤ 1) := by
  refine ⟨⟨?_, ?_⟩, ⟨?_, ?_⟩, ⟨?_, ?_⟩, ⟨?_, ?_⟩, ⟨?_, ?_⟩⟩ <;>
    first
      | exact clamp01_nonneg _
      | exact clamp01_le_one _

/-- Witness for C3 at learning rate 1, activities 2 and 3, prior
weight 1/2, spike times 4 and 5, scaling factor 6. -/
theorem plasticity_rules_clamp_witness :
    ((0 : ℝ) ≤ 1/2 ∧ (1/2 : ℝ) ≤ 1) ∧
    ((0 ≤ applyHebbianRule 1 2 3 (1/2) ∧ applyHebbianRule 1 2 3 (1/2) ≤ 1) ∧
    (0 ≤ applyBCMRule 1 1 1 2 3 (1/2) ∧ applyBCMRule 1 1 1 2 3 (1/2) ≤ 1) ∧
    (0 ≤ applyOjaRule 1 2 3 (1/2) ∧ applyOjaRule 1 2 3 (1/2) ≤ 1) ∧
    (0 ≤ applySTDPRule 4 5 (1/2) ∧ applySTDPRule 4 5 (1/2) ≤ 1) ∧
    (0 ≤ scaleSynapse (1/2) 6 ∧ scaleSynapse (1/2) 6 ≤ 1)) :=
  ⟨⟨by norm_num, by norm_num⟩,
    plasticity_rules_clamp_to_unit_interval 1 1 1 2 3 (1/2) 4 5 6
      (by norm_num) (by norm_num)⟩

/-- **C9**: `handleMeasurement` ("measure") on an unregistered id
faults — it dereferences `node.element` on the missing node after the
(silently returning) collapse, a `TypeError` (`none` here) instead of
the non-fatal failure indicator the claim requires. -/
theorem measure_missing_id_faults :
    handleMeasurement 5 (fun _ => true) sys2 99 = none := by
  rfl

/-- One unfolding of `collapseFuel` at a node with a registered
entangled partner: the call recurses on the partner. -/
theorem collapseFuel_entangled_step (fuel k : ℕ) (bits : ℕ → Bool) (st : QSystem)
    (a b : ℕ) (na : QNode) (hna : st.nodes a = some na) (hab : st.qniEnt a = some b)
    (hb : ((setNode st a (collapsedNode bits k na)).nodes b).isSome = true) :
    collapseFuel (fuel + 1) bits k st a =
      collapseFuel fuel bits (k + 1) (setNode st a (collapsedNode bits k na)) b := by
  obtain ⟨nb1, hnb1⟩ := Option.isSome_iff_exists.mp hb
  rw [collapseFuel]
  simp only [hna, hab]
  rw [hnb1]

/-- The mutual collapse recursion through `QNI.entanglements` never
terminates: for a pair of registered nodes pointing at each other, the
fuelled collapse exhausts any fuel. -/
theorem collapseFuel_mutual_none (bits : ℕ → Bool) (a b : ℕ) :
    ∀ (fuel k : ℕ) (st : QSystem), (st.nodes a).isSome → (st.nodes b).isSome →
      st.qniEnt a = some b → st.qniEnt b = some a →
      collapseFuel fuel bits k st a = none ∧ collapseFuel fuel bits k st b = none := by
  intro fuel
  induction fuel with
  | zero =>
    intro k st _ _ _ _
    exact ⟨rfl, rfl⟩
  | succ fuel ih =>
    intro k st ha hb hab hba
    obtain ⟨na, hna⟩ := Option.isSome_iff_exists.mp ha
    obtain ⟨nb, hnb⟩ := Option.isSome_iff_exists.mp hb
    have hbaup : ∀ v : QNode, ((setNode st a v).nodes b).isSome = true := by
      intro v
      rcases eq_or_ne b a with rfl | hne
      · simp [setNode, Function.update]
      · simpa [setNode, Function.update_apply, hne] using hb
    have habup : ∀ v : QNode, ((setNode st b v).nodes a).isSome = true := by
      intro v
      rcases eq_or_ne a b with rfl | hne
      · simp [setNode, Function.update]
      · simpa [setNode, Function.update_apply, hne] using ha
    constructor
    · rw [collapseFuel_entangled_step fuel k bits st a b na hna hab (hbaup _)]
      refine (ih (k + 1) _ ?_ ?_ ?_ ?_).2
      · simp [setNode, Function.update]
      · exact hbaup _
      · simpa [setNode] using hab
      · simpa [setNode] using hba
    · rw [collapseFuel_entangled_step fuel k bits st b a nb hnb hba (habup _)]
      refine (ih (k + 1) _ ?_ ?_ ?_ ?_).1
      · exact habup _
      · simp [setNode, Function.update]
      · simpa [setNode] using hab
      · simpa [setNode] using hba

/-- **C2**: `collapseWaveFunction` is NOT idempotent — it has no
already-collapsed guard — and on a pair entangled through
`QNI.entangleNodes` the mutual propagation `A → B → A → …` never
terminates: for every recursion budget and every random seed the
fuelled collapse of member `0` runs out of fuel. -/
theorem collapse_entangled_pair_never_terminates (fuel : ℕ) (bits : ℕ → Bool) :
    collapseFuel fuel bits 0 (entangleNodes sys2 0 1 Spin.up 0).2 0 = none := by
  refine (collapseFuel_mutual_none bits 0 1 fuel 0 _ ?_ ?_ ?_ ?_).1
  · decide
  · decide
  · decide
  · decide

/-- The `pruneWeakestSynapse` scan, generalised over its accumulator:
either no synapse improves on the accumulator (every weight is at
least `acc.2`) or the scan settles on a synapse of minimum weight
strictly below `acc.2`. -/
theorem weakestScan_go (w : ℕ → ℚ) :
    ∀ (syns : List ℕ) (acc : Option ℕ × ℚ),
      (syns.foldl (fun acc s => if w s < acc.2 then (some s, w s) else acc) acc = acc ∧
        ∀ t ∈ syns, acc.2 ≤ w t) ∨
      (∃ s ∈ syns,
        syns.foldl (fun acc s => if w s < acc.2 then (some s, w s) else acc) acc = (some s, w s) ∧
        w s < acc.2 ∧ ∀ t ∈ syns, w s ≤ w t) := by
  intro syns
  induction syns with
  | nil =>
    intro acc
    left
    exact ⟨rfl, by simp⟩
  | cons s rest ih =>
    intro acc
    by_cases h : w s < acc.2
    · rcases ih (some s, w s) with ⟨heq, hall⟩ | ⟨s', hs', heq, hlt, hall⟩
      · right
        refine ⟨s, by simp, ?_, h, ?_⟩
        · simpa [List.foldl_cons, if_pos h] using heq
        · intro t ht
          rcases List.mem_cons.mp ht with rfl | ht
          · exact le_refl _
          · exact hall t ht
      · right
        refine ⟨s', List.mem_cons_of_mem _ hs', ?_, lt_trans hlt h, ?_⟩
        · simpa [List.foldl_cons, if_pos h] using heq
        · intro t ht
          rcases List.mem_cons.mp ht with rfl | ht
          · exact le_of_lt hlt
          · exact hall t ht
    · rcases ih acc with ⟨heq, hall⟩ | ⟨s', hs', heq, hlt, hall⟩
      · left
        refine ⟨by simpa [List.foldl_cons, if_neg h] using heq, ?_⟩
        intro t ht
        rcases List.mem_cons.mp ht with rfl | ht
        · exact le_of_not_lt h
        · exact hall t ht
      · right
        refine ⟨s', List.mem_cons_of_mem _ hs', ?_, hlt, ?_⟩
        · simpa [List.foldl_cons, if_neg h] using heq
        · intro t ht
          rcases List.mem_cons.mp ht with rfl | ht
          · exact le_of_lt (lt_of_lt_of_le hlt (le_of_not_lt h))
          · exact hall t ht

/-- When the scan finds a victim, it is a member of the list, has
weight strictly below the sentinel 1, and its weight is minimal. -/
theorem weakestScan_some (w : ℕ → ℚ) (syns : List ℕ) (s : ℕ)
    (h : (weakestScan w syns).1 = some s) :
    s ∈ syns ∧ w s < 1 ∧ ∀ t ∈ syns, w s ≤ w t := by
  rcases weakestScan_go w syns (none, 1) with ⟨heq, _⟩ | ⟨s', hs', heq, hlt, hall⟩
  · rw [weakestScan] at h
    rw [heq] at h
    exact absurd h (by simp)
  · rw [weakestScan] at h
    rw [heq] at h
    obtain rfl : s' = s := by simpa using h
    exact ⟨hs', hlt, hall⟩

/-- The scan cannot come back empty when some weight is strictly
below 1 (the JavaScript sentinel `minWeight = 1`). -/
theorem weakestScan_isSome_of_lt (w : ℕ → ℚ) (syns : List ℕ)
    (h : ∃ s ∈ syns, w s < 1) : ∃ s, (weakestScan w syns).1 = some s := by
  rcases weakestScan_go w syns (none, 1) with ⟨_, hall⟩ | ⟨s', _, heq, _, _⟩
  · obtain ⟨s, hs, hlt⟩ := h
    exact absurd (hall s hs) (not_le.mpr hlt)
  · exact ⟨s', by rw [weakestScan, heq]⟩

/-- At a neuron where some outgoing weight is strictly below 1,
pruning removes exactly one synapse — a scanned minimum-weight one. -/
theorem pruneWeakestSynapse_at_capacity (e : Engine) (preId : ℕ) (preN : Neuron)
    (hpre : e.neurons preId = some preN)
    (hex : ∃ s ∈ preN.synapses, e.weight preId s < 1) :
    ∃ s, (weakestScan (e.weight preId) preN.synapses).1 = some s ∧
      (pruneWeakestSynapse e preId).neurons preId =
        some { preN with synapses := preN.synapses.erase s } ∧
      (preN.synapses.erase s).length = preN.synapses.length - 1 := by
  obtain ⟨s, hs⟩ := weakestScan_isSome_of_lt _ _ hex
  have hmem := (weakestScan_some _ _ _ hs).1
  refine ⟨s, hs, ?_, List.length_erase_of_mem hmem⟩
  unfold pruneWeakestSynapse
  simp only [hpre, hs]
  simp [Function.update]

/-- **C4 (amended)**: a `formSynapse` call keeps the neuron's outgoing
synapse count within `maxSynapses` PROVIDED that, when the neuron is at
capacity, some existing outgoing synapse has weight strictly below 1
(the scan's sentinel; with every weight ≥ 1 nothing is pruned and the
bound is exceeded); and whenever the scan selects a victim to evict,
that victim is a currently-minimum-weight synapse. -/
theorem formSynapse_bounded_and_evicts_minimum (e : Engine) (preId postId : ℕ) (w : ℚ)
    (preN : Neuron) (hpre : e.neurons preId = some preN)
    (hlen : preN.synapses.length ≤ e.maxSynapses)
    (hmin : preN.synapses.length = e.maxSynapses → ∃ s ∈ preN.synapses, e.weight preId s < 1) :
    (∀ n', (formSynapse e preId postId w).2.neurons preId = some n' →
      n'.synapses.length ≤ e.maxSynapses) ∧
    (∀ s, (weakestScan (e.weight preId) preN.synapses).1 = some s →
      s ∈ preN.synapses ∧ ∀ t ∈ preN.synapses, e.weight preId s ≤ e.weight preId t) := by
  constructor
  · intro n' hn'
    by_cases hpp : preId = postId
    · rw [formSynapse, if_pos hpp] at hn'
      rw [hpre] at hn'
      obtain rfl : preN = n' := by simpa using hn'
      exact hlen
    · rw [formSynapse, if_neg hpp] at hn'
      rcases hpost : e.neurons postId with _ | postN
      · simp only [hpre, hpost] at hn'
        obtain rfl : preN = n' := by simpa using hn'
        exact hlen
      · simp only [hpre, hpost] at hn'
        by_cases hmem : postId ∈ preN.synapses
        · rw [if_pos hmem] at hn'
          rw [hpre] at hn'
          obtain rfl : preN = n' := by simpa using hn'
          exact hlen
        · rw [if_neg hmem] at hn'
          by_cases hcap : e.maxSynapses ≤ preN.synapses.length
          · have hexact : preN.synapses.length = e.maxSynapses := le_antisymm hlen hcap
            obtain ⟨s, _, hprune, herase⟩ :=
              pruneWeakestSynapse_at_capacity e preId preN hpre (hmin hexact)
            have hone : 1 ≤ preN.synapses.length := by
              obtain ⟨t, ht, _⟩ := hmin hexact
              exact List.length_pos_of_mem ht
            rw [if_pos hcap] at hn'
            simp only [hprune, Function.update_same] at hn'
            obtain rfl : { preN with synapses := preN.synapses.erase s ++ [postId] } = n' := by
              simpa using hn'
            simp only [List.length_append, herase, List.length_singleton]
            omega
          · rw [if_neg hcap] at hn'
            simp only [hpre, Function.update_same] at hn'
            obtain rfl : { preN with synapses := preN.synapses ++ [postId] } = n' := by
              simpa using hn'
            simp only [List.length_append, List.length_singleton]
            omega
  · intro s hs
    obtain ⟨h1, _, h3⟩ := weakestScan_some _ _ _ hs
    exact ⟨h1, h3⟩

/-- **C4 counterexample**: with `maxSynapses = 2` and both existing
outgoing weights equal to 1, forming a third synapse from neuron 0
prunes nothing (the scan's strict `< 1` sentinel finds no victim) and
the outgoing synapse count reaches 3 > 2. -/
theorem formSynapse_exceeds_max_counterexample :
    ((formSynapse engAll1 0 3 (3/10)).2.neurons 0).map (fun n => n.synapses.length) = some 3 ∧
    engAll1.maxSynapses = 2 := by
  constructor
  · decide
  · decide

/-- Witness for C4 (amended) at `engGood` (weights 1/2 and 1, at
capacity 2): forming synapse `0 → 3` evicts synapse 1 (the minimum)
and the count stays at the bound. -/
theorem formSynapse_bounded_witness :
    (formSynapse engGood 0 3 (3/10)).2.neurons 0 = some { synapses := [2, 3] } ∧
    ({ synapses := [2, 3] } : Neuron).synapses.length ≤ engGood.maxSynapses ∧
    engGood.weight 0 1 ≤ engGood.weight 0 2 := by
  have hpre : engGood.neurons 0 = some { synapses := [1, 2] } := rfl
  have h := formSynapse_bounded_and_evicts_minimum engGood 0 3 (3/10) _ hpre
    (by decide)
    (fun _ => ⟨1, by simp, by norm_num [engGood, engAll1]⟩)
  have heq : (formSynapse engGood 0 3 (3/10)).2.neurons 0 = some { synapses := [2, 3] } := by
    norm_num [formSynapse, engGood, engAll1, pruneWeakestSynapse, weakestScan, Function.update]
  have hscan : (weakestScan (engGood.weight 0) ({ synapses := [1, 2] } : Neuron).synapses).1 =
      some 1 := by
    norm_num [weakestScan, engGood, engAll1]
  exact ⟨heq, h.1 _ heq, (h.2 1 hscan).2 2 (by simp)⟩

theorem superpositionOf_setNode (st : QSystem) (id : ℕ) (n : QNode) (e : ℕ) :
    superpositionOf (setNode st id n) e =
      if e = id then some n.superposition else superpositionOf st e := by
  by_cases h : e = id
  · subst h
    simp [superpositionOf, setNode, Function.update]
  · simp [superpositionOf, setNode, Function.update_apply, h]

/-- `collapseWaveFunction` only ever clears `superposition`; a node
reported collapsed before a (terminating) collapse call is still
collapsed after it. -/
theorem collapseFuel_keeps_collapsed (bits : ℕ → Bool) (e : ℕ) :
    ∀ (fuel k : ℕ) (st : QSystem) (id : ℕ) (st' : QSystem) (k' : ℕ),
      collapseFuel fuel bits k st id = some (st', k') →
      superpositionOf st e = some false → superpositionOf st' e = some false := by
  intro fuel
  induction fuel with
  | zero =>
    intro k st id st' k' h
    simp [collapseFuel] at h
  | succ fuel ih =>
    intro k st id st' k' h hpre
    rw [collapseFuel] at h
    rcases hna : st.nodes id with _ | na
    · simp only [hna, Option.some.injEq, Prod.mk.injEq] at h
      obtain ⟨rfl, rfl⟩ := h
      exact hpre
    · simp only [hna] at h
      have h1 : superpositionOf (setNode st id (collapsedNode bits k na)) e = some false := by
        rw [superpositionOf_setNode]
        split
        · simp [collapsedNode]
        · exact hpre
      rcases hq : st.qniEnt id with _ | pid
      · simp only [hq, Option.some.injEq, Prod.mk.injEq] at h
        obtain ⟨rfl, rfl⟩ := h
        exact h1
      · simp only [hq] at h
        rcases hp : (setNode st id (collapsedNode bits k na)).nodes pid with _ | np
        · simp only [hp, Option.some.injEq, Prod.mk.injEq] at h
          obtain ⟨rfl, rfl⟩ := h
          exact h1
        · simp only [hp] at h
          exact ih (k + 1) _ pid st' k' h h1

theorem handleObservation_keeps_collapsed (cfg : QNIConfig) (fuel : ℕ) (bits : ℕ → Bool)
    (st : QSystem) (id : ℕ) (st' : QSystem) (e : ℕ)
    (h : handleObservation cfg fuel bits st id = some st')
    (hpre : superpositionOf st e = some false) : superpositionOf st' e = some false := by
  rw [handleObservation] at h
  rcases hna : st.nodes id with _ | na
  · simp only [hna, Option.some.injEq] at h
    exact h ▸ hpre
  · simp only [hna] at h
    by_cases hsup : na.superposition = true
    · rw [if_pos hsup] at h
      have h1 : superpositionOf (setNode st id { na with amplitude := na.amplitude * (9/10) }) e =
          some false := by
        rw [superpositionOf_setNode]
        split
        · next heq =>
          subst heq
          rw [superpositionOf, hna] at hpre
          simp at hpre
          simp [hpre] at hsup
        · exact hpre
      by_cases hamp : na.amplitude * (9/10) < cfg.observationThreshold
      · rw [if_pos hamp] at h
        rw [Option.map_eq_some'] at h
        obtain ⟨⟨st2, k2⟩, hc, rfl⟩ := h
        exact collapseFuel_keeps_collapsed bits e fuel 0 _ id st2 k2 hc h1
      · rw [if_neg hamp] at h
        rw [Option.some.injEq] at h
        exact h ▸ h1
    · rw [if_neg hsup] at h
      rw [Option.some.injEq] at h
      exact h ▸ hpre

theorem handleMeasurement_keeps_collapsed (fuel : ℕ) (bits : ℕ → Bool)
    (st : QSystem) (id : ℕ) (st' : QSystem) (e : ℕ)
    (h : handleMeasurement fuel bits st id = some st')
    (hpre : superpositionOf st e = some false) : superpositionOf st' e = some false := by
  rw [handleMeasurement] at h
  rcases hc : collapseFuel fuel bits 0 st id with _ | ⟨st2, k2⟩
  · simp [hc] at h
  · simp only [hc] at h
    rcases hn : st2.nodes id with _ | n
    · simp [hn] at h
    · simp only [hn, Option.some.injEq] at h
      exact h ▸ collapseFuel_keeps_collapsed bits e fuel 0 st id st2 k2 hc hpre

theorem applyDecoherence_keeps_collapsed (fuel : ℕ) (bits : ℕ → Bool) (jump : Bool) (r : ℝ)
    (st : QSystem) (id : ℕ) (st' : QSystem) (e : ℕ)
    (h : applyDecoherence fuel bits jump r st id = some st')
    (hpre : superpositionOf st e = some false) : superpositionOf st' e = some false := by
  rw [applyDecoherence] at h
  rcases hna : st.nodes id with _ | na
  · simp only [hna, Option.some.injEq] at h
    exact h ▸ hpre
  · simp only [hna, Option.map_eq_some'] at h
    obtain ⟨s2, hmain, rfl⟩ := h
    have hhist : ∀ s : QSystem,
        superpositionOf { s with history := Function.update s.history id (s.history id + 1) } e =
          superpositionOf s e := by
      intro s
      simp [superpositionOf]
    rw [hhist]
    by_cases hj : jump = true
    · rw [if_pos hj, Option.map_eq_some'] at hmain
      obtain ⟨⟨st2, k2⟩, hc, rfl⟩ := hmain
      exact collapseFuel_keeps_collapsed bits e fuel 0 st id st2 k2 hc hpre
    · rw [if_neg hj] at hmain
      have h1 : superpositionOf
          (setNode st id { na with phase := na.phase + r, amplitude := na.amplitude * (9/10) }) e =
          some false := by
        rw [superpositionOf_setNode]
        split
        · next heq =>
          subst heq
          rw [superpositionOf, hna] at hpre
          simpa using hpre
        · exact hpre
      by_cases hamp : na.amplitude * (9/10) < 3/10
      · rw [if_pos hamp, Option.map_eq_some'] at hmain
        obtain ⟨⟨st2, k2⟩, hc, rfl⟩ := hmain
        exact collapseFuel_keeps_collapsed bits e fuel 0 _ id st2 k2 hc h1
      · rw [if_neg hamp, Option.some.injEq] at hmain
        exact hmain ▸ h1

theorem breakEntanglement_keeps_collapsed (st : QSystem) (id : ℕ) (p : Bool × QSystem) (e : ℕ)
    (h : breakEntanglement st id = some p)
    (hpre : superpositionOf st e = some false) : superpositionOf p.2 e = some false := by
  rw [breakEntanglement] at h
  rcases hq : st.pairs id with _ | pid
  · simp only [hq, Option.some.injEq] at h
    rw [← h]
    exact hpre
  · simp only [hq] at h
    rcases h1 : st.nodes id with _ | n1 <;> rcases h2 : st.nodes pid with _ | n2 <;>
      simp only [h1, h2, Option.some.injEq, reduceCtorEq] at h
    rw [← h]
    simpa [superpositionOf] using hpre

/-- **C6 (amended)**: once an entity is collapsed, no sequence of
`observe`, `measure`, `collapse`, `decoherence` or `break` operations
returns it to superposition (`entangle` is excluded: re-entangling
re-applies the Bell assignment, which sets `superposition = true` on
both members). -/
theorem collapsed_is_terminal (cfg : QNIConfig) (ops : List QOp) :
    ∀ (st st' : QSystem) (e : ℕ),
      superpositionOf st e = some false → runOps cfg ops st = some st' →
      superpositionOf st' e = some false := by
  induction ops with
  | nil =>
    intro st st' e hpre hrun
    simp only [runOps, Option.some.injEq] at hrun
    exact hrun ▸ hpre
  | cons op ops ih =>
    intro st st' e hpre hrun
    simp only [runOps, Option.bind_eq_bind, Option.bind_eq_some] at hrun
    obtain ⟨st1, hop, hrest⟩ := hrun
    refine ih st1 st' e ?_ hrest
    cases op with
    | observe id fuel bits => exact handleObservation_keeps_collapsed cfg fuel bits st id st1 e hop hpre
    | measure id fuel bits => exact handleMeasurement_keeps_collapsed fuel bits st id st1 e hop hpre
    | collapse id fuel bits =>
      simp only [runOp, Option.map_eq_some'] at hop
      obtain ⟨⟨st2, k2⟩, hc, rfl⟩ := hop
      exact collapseFuel_keeps_collapsed bits e fuel 0 st id st2 k2 hc hpre
    | decohere id jump r fuel bits =>
      exact applyDecoherence_keeps_collapsed fuel bits jump r st id st1 e hop hpre
    | breakE id =>
      simp only [runOp, Option.map_eq_some'] at hop
      obtain ⟨p, hb, rfl⟩ := hop
      exact breakEntanglement_keeps_collapsed st id p e hb hpre

/-- **C6 counterexample**: node 0 of `sysC` is collapsed, yet the core
operation `entangle(0, 1, Φ+)` — included in the claim's operation
list — returns it to superposition without any reset. -/
theorem entangle_revives_collapsed_counterexample :
    superpositionOf sysC 0 = some false ∧
    superpositionOf (createEntanglement sysC 0 1 BellState.phiPlus).2 0 = some true := by
  exact ⟨by decide, by decide⟩

/-- Witness for C6 (amended): observing collapsed node 0 of `sysC`
leaves it collapsed. -/
theorem collapsed_is_terminal_witness :
    ∃ st', runOps cfg0 [QOp.observe 0 1 (fun _ => true)] sysC = some st' ∧
      superpositionOf st' 0 = some false :=
  ⟨sysC, rfl,
    collapsed_is_terminal cfg0 [QOp.observe 0 1 (fun _ => true)] sysC sysC 0 (by decide) rfl⟩

/-- What `createEntanglement` writes when both ids are registered and
distinct: success, the Bell assignment on both nodes, untouched
`QNI.entanglements`, and the two (overwritten) `entangledPairs`
directions. -/
theorem createEntanglement_result (st : QSystem) (id1 id2 : ℕ) (bell : BellState)
    (n1 n2 : QNode) (hne : id1 ≠ id2)
    (hn1 : st.nodes id1 = some n1) (hn2 : st.nodes id2 = some n2) :
    (createEntanglement st id1 id2 bell).1 = true ∧
    (createEntanglement st id1 id2 bell).2.nodes id1 =
      some { n1 with spin := (bellAssignment bell).1, phase := (bellAssignment bell).2.2.1, superposition := true, amplitude := 1 } ∧
    (createEntanglement st id1 id2 bell).2.nodes id2 =
      some { n2 with spin := (bellAssignment bell).2.1, phase := (bellAssignment bell).2.2.2, superposition := true, amplitude := 1 } ∧
    (createEntanglement st id1 id2 bell).2.qniEnt = st.qniEnt ∧
    (createEntanglement st id1 id2 bell).2.pairs id1 = some id2 ∧
    (createEntanglement st id1 id2 bell).2.pairs id2 = some id1 := by
  have hne2 : id2 ≠ id1 := fun h => hne h.symm
  refine ⟨?_, ?_, ?_, ?_, ?_, ?_⟩ <;>
    simp [createEntanglement, applyBellState, setNode, hn1, hn2, Function.update_apply, hne, hne2]

/-- **C8 counterexample**: in `sysTri`, node 0 is already entangled
with node 2, yet `entangle(0, 1, Φ+)` succeeds (returns `true`),
remaps `0 ↦ 1` and leaves the stale reverse mapping `2 ↦ 0`, so the
pairing is no longer symmetric. -/
theorem entangle_already_entangled_counterexample :
    sysTri.pairs 0 = some 2 ∧
    (createEntanglement sysTri 0 1 BellState.phiPlus).1 = true ∧
    (createEntanglement sysTri 0 1 BellState.phiPlus).2.pairs 0 = some 1 ∧
    (createEntanglement sysTri 0 1 BellState.phiPlus).2.pairs 2 = some 0 := by
  exact ⟨by decide, by decide, by decide, by decide⟩

/-- **C8 (amended)**: `createEntanglement` fails (with no mutation)
exactly when one of the ids is unregistered; whenever both are
registered it succeeds — even if either node is already entangled —
overwriting the two forward `entangledPairs` directions, which can
leave a stale reverse mapping from an old partner. -/
theorem entangle_failure_and_overwrite :
    (∀ (st : QSystem) (id1 id2 : ℕ) (bell : BellState),
      st.nodes id1 = none ∨ st.nodes id2 = none →
      createEntanglement st id1 id2 bell = (false, st)) ∧
    (∀ (st : QSystem) (id1 id2 : ℕ) (bell : BellState), id1 ≠ id2 →
      (st.nodes id1).isSome = true → (st.nodes id2).isSome = true →
      (createEntanglement st id1 id2 bell).1 = true ∧
      (createEntanglement st id1 id2 bell).2.pairs id1 = some id2 ∧
      (createEntanglement st id1 id2 bell).2.pairs id2 = some id1) := by
  constructor
  · intro st id1 id2 bell h
    rcases h1 : st.nodes id1 with _ | n1
    · simp [createEntanglement, h1]
    · rcases h with h | h
      · rw [h1] at h
        exact absurd h (by simp)
      · simp [createEntanglement, h1, h]
  · intro st id1 id2 bell hne h1 h2
    obtain ⟨n1, hn1⟩ := Option.isSome_iff_exists.mp h1
    obtain ⟨n2, hn2⟩ := Option.isSome_iff_exists.mp h2
    obtain ⟨ha, _, _, _, hp1, hp2⟩ := createEntanglement_result st id1 id2 bell n1 n2 hne hn1 hn2
    exact ⟨ha, hp1, hp2⟩

/-- Witness for C8 (amended): entangling with the unregistered id 5
fails without mutation; re-entangling the already-entangled node 0 of
`sysTri` with node 1 succeeds and rewrites both forward directions. -/
theorem entangle_failure_and_overwrite_witness :
    createEntanglement sys2 0 5 BellState.phiPlus = (false, sys2) ∧
    ((createEntanglement sysTri 0 1 BellState.phiPlus).1 = true ∧
      (createEntanglement sysTri 0 1 BellState.phiPlus).2.pairs 0 = some 1 ∧
      (createEntanglement sysTri 0 1 BellState.phiPlus).2.pairs 1 = some 0) :=
  ⟨entangle_failure_and_overwrite.1 sys2 0 5 BellState.phiPlus (Or.inr rfl),
    entangle_failure_and_overwrite.2 sysTri 0 1 BellState.phiPlus (by decide) (by decide)
      (by decide)⟩

/-- **C7 counterexample**: one `observe` on superposed node 0 of
`sys2` leaves the observation count at 0 — nothing in the repository
ever increments `observationCount`, so the claimed increment to 1 does
not happen. -/
theorem observe_count_counterexample :
    (handleObservation cfg0 1 (fun _ => true) sys2 0).bind (fun s => obsCountOf s 0) = some 0 ∧
    (handleObservation cfg0 1 (fun _ => true) sys2 0).bind (fun s => obsCountOf s 0) ≠ some 1 := by
  have h : (handleObservation cfg0 1 (fun _ => true) sys2 0).bind (fun s => obsCountOf s 0) =
      some 0 := by
    norm_num [handleObservation, sys2, nodeUp, cfg0, obsCountOf, setNode, Function.update]
  refine ⟨h, ?_⟩
  rw [h]
  simp

/-- **C7 (amended)**: `observe(id)` on a superposed entity multiplies
its amplitude by 0.9 and forces collapse exactly when the result drops
below `observationThreshold` (default 0.85); it does NOT increment any
observation count (the `observationCount` read by the decoherence
monitor is never written). -/
theorem observe_amended (cfg : QNIConfig) (fuel : ℕ) (bits : ℕ → Bool) (st : QSystem)
    (id : ℕ) (node : QNode) (hn : st.nodes id = some node) (hs : node.superposition = true)
    (hq : st.qniEnt id = none) :
    ({} : QNIConfig).observationThreshold = 85/100 ∧
    ∃ node', (handleObservation cfg (fuel + 1) bits st id).bind (fun s => s.nodes id) =
        some node' ∧
      node'.amplitude = node.amplitude * (9/10) ∧
      node'.observationCount = node.observationCount ∧
      (node'.superposition = false ↔ node.amplitude * (9/10) < cfg.observationThreshold) := by
  refine ⟨rfl, ?_⟩
  rw [handleObservation]
  simp only [hn]
  rw [if_pos hs]
  by_cases hamp : node.amplitude * (9/10) < cfg.observationThreshold
  · rw [if_pos hamp]
    rw [collapseFuel]
    have hst1n : (setNode st id { node with amplitude := node.amplitude * (9/10) }).nodes id =
        some { node with amplitude := node.amplitude * (9/10) } := by
      simp [setNode, Function.update]
    have hq1 : (setNode st id { node with amplitude := node.amplitude * (9/10) }).qniEnt id =
        none := by
      simpa [setNode] using hq
    simp only [hst1n, hq1]
    refine ⟨collapsedNode bits 0 { node with amplitude := node.amplitude * (9/10) }, ?_, rfl, rfl, ?_⟩
    · simp [setNode, Function.update]
    · simp [collapsedNode, hamp]
  · rw [if_neg hamp]
    refine ⟨{ node with amplitude := node.amplitude * (9/10) }, ?_, rfl, rfl, ?_⟩
    · simp [setNode, Function.update]
    · simp [hs, hamp]

/-- Witness for C7 (amended) at `sysDim` (amplitude 0.9): one observe
takes the amplitude to 0.81 < 0.85, which forces collapse, and the
observation count is unchanged. -/
theorem observe_amended_witness :
    sysDim.nodes 0 = some nodeDim ∧
    (({} : QNIConfig).observationThreshold = 85/100 ∧
      ∃ node', (handleObservation cfg0 1 (fun _ => true) sysDim 0).bind (fun s => s.nodes 0) =
          some node' ∧
        node'.amplitude = nodeDim.amplitude * (9/10) ∧
        node'.observationCount = nodeDim.observationCount ∧
        (node'.superposition = false ↔ nodeDim.amplitude * (9/10) < cfg0.observationThreshold)) :=
  ⟨rfl, observe_amended cfg0 0 (fun _ => true) sysDim 0 nodeDim rfl rfl rfl⟩

/-- **C1 counterexample**: after `entangle(0, 1, Φ+)` in `sys2`, a
`measure(0)` whose random draw collapses node 0 to spin `down` leaves
node 1 with spin `up` and still in superposition: collapse does not
set the partner per the Bell truth table (Φ+ requires equal spins),
and whether the table holds depends on the random seed. -/
theorem bell_collapse_counterexample :
    (handleMeasurement 1 (fun _ => false) (createEntanglement sys2 0 1 BellState.phiPlus).2 0).bind
        (fun s => spinOf s 0) = some Spin.down ∧
    (handleMeasurement 1 (fun _ => false) (createEntanglement sys2 0 1 BellState.phiPlus).2 0).bind
        (fun s => spinOf s 1) = some Spin.up ∧
    (handleMeasurement 1 (fun _ => false) (createEntanglement sys2 0 1 BellState.phiPlus).2 0).bind
        (fun s => superpositionOf s 1) = some true := by
  exact ⟨by decide, by decide, by decide⟩

/-- **C1 (amended)**: the Bell truth table is applied at entanglement
CREATION: `createEntanglement` (via `applyBellState`) deterministically
writes table-conforming spins/phases into both members, independently
of any random seed; and in the scenario `entangle(A,B,Φ+)` then
`measure(A)`, whenever the measurement's random draw yields spin `up`,
B's spin is `up` and B's phase equals A's phase (both fixed at
creation — collapse itself propagates nothing). -/
theorem entangle_truth_table_and_phiPlus_scenario :
    (∀ (st : QSystem) (id1 id2 : ℕ) (bell : BellState), id1 ≠ id2 →
      (st.nodes id1).isSome = true → (st.nodes id2).isSome = true →
      ∃ n1 n2, (createEntanglement st id1 id2 bell).2.nodes id1 = some n1 ∧
        (createEntanglement st id1 id2 bell).2.nodes id2 = some n2 ∧
        bellTruthTable bell n1.spin n2.spin n1.phase n2.phase) ∧
    (∀ (st : QSystem) (a b fuel : ℕ) (bits : ℕ → Bool), a ≠ b →
      (st.nodes a).isSome = true → (st.nodes b).isSome = true → st.qniEnt a = none →
      bits 0 = true →
      ∃ st2, handleMeasurement (fuel + 1) bits (createEntanglement st a b BellState.phiPlus).2 a =
          some st2 ∧
        spinOf st2 a = some Spin.up ∧ spinOf st2 b = some Spin.up ∧
        phaseOf st2 b = phaseOf st2 a) := by
  constructor
  · intro st id1 id2 bell hne h1 h2
    obtain ⟨n1, hn1⟩ := Option.isSome_iff_exists.mp h1
    obtain ⟨n2, hn2⟩ := Option.isSome_iff_exists.mp h2
    obtain ⟨_, ha1, ha2, _, _, _⟩ := createEntanglement_result st id1 id2 bell n1 n2 hne hn1 hn2
    refine ⟨_, _, ha1, ha2, ?_⟩
    cases bell <;> simp [bellTruthTable, bellAssignment]
  · intro st a b fuel bits hne h1 h2 hq hbit
    obtain ⟨n1, hn1⟩ := Option.isSome_iff_exists.mp h1
    obtain ⟨n2, hn2⟩ := Option.isSome_iff_exists.mp h2
    obtain ⟨_, ha1, ha2, hqe, _, _⟩ :=
      createEntanglement_result st a b BellState.phiPlus n1 n2 hne hn1 hn2
    set stE := (createEntanglement st a b BellState.phiPlus).2 with hstE
    have hqa : stE.qniEnt a = none := by rw [hqe, hq]
    rw [handleMeasurement, collapseFuel]
    simp only [ha1, hqa]
    have hnoda : (setNode stE a (collapsedNode bits 0 { n1 with spin := (bellAssignment BellState.phiPlus).1, phase := (bellAssignment BellState.phiPlus).2.2.1, superposition := true, amplitude := 1 })).nodes a = some (collapsedNode bits 0 { n1 with spin := (bellAssignment BellState.phiPlus).1, phase := (bellAssignment BellState.phiPlus).2.2.1, superposition := true, amplitude := 1 }) := by
      simp [setNode, Function.update]
    simp only [hnoda]
    refine ⟨_, rfl, ?_, ?_, ?_⟩
    · rw [spinOf]
      rw [hnoda]
      simp [collapsedNode, hbit]
    · have hnodb : (setNode stE a (collapsedNode bits 0 { n1 with spin := (bellAssignment BellState.phiPlus).1, phase := (bellAssignment BellState.phiPlus).2.2.1, superposition := true, amplitude := 1 })).nodes b = stE.nodes b := by
        have hba : b ≠ a := fun h => hne h.symm
        simp [setNode, Function.update_apply, hba]
      rw [spinOf, hnodb, ha2]
      simp [bellAssignment]
    · have hnodb : (setNode stE a (collapsedNode bits 0 { n1 with spin := (bellAssignment BellState.phiPlus).1, phase := (bellAssignment BellState.phiPlus).2.2.1, superposition := true, amplitude := 1 })).nodes b = stE.nodes b := by
        have hba : b ≠ a := fun h => hne h.symm
        simp [setNode, Function.update_apply, hba]
      rw [phaseOf, phaseOf, hnodb, ha2, hnoda]
      simp [collapsedNode, bellAssignment]

/-- Witness for C1 (amended): the Φ+ scenario on `sys2` with a random
stream that draws spin `up`. -/
theorem entangle_truth_table_witness :
    ∃ st2, handleMeasurement 1 (fun _ => true) (createEntanglement sys2 0 1 BellState.phiPlus).2 0 =
        some st2 ∧
      spinOf st2 0 = some Spin.up ∧ spinOf st2 1 = some Spin.up ∧
      phaseOf st2 1 = phaseOf st2 0 :=
  entangle_truth_table_and_phiPlus_scenario.2 sys2 0 1 0 (fun _ => true)
    (by decide) (by decide) (by decide) rfl rfl

theorem normSumGrid_nonneg {N : ℕ} (ψ : Grid N) : 0 ≤ normSumGrid ψ :=
  Finset.sum_nonneg fun p _ => by positivity

/-- **C5**: after a full `stepWavefunction` (any transform pair, hence
either the FFT-library path or the fallback, any field, any potential,
any options — in particular any Gaussian packet and any nonlinearity),
if the pre-normalization norm `√(Σ(re²+im²)·dx·dx)` is nonzero then
the post-step field satisfies `Σ|ψ|²·dx² = 1` exactly. -/
theorem step_renormalizes (o : WaveOptions) {N : ℕ} (T Tinv : Grid N → Grid N)
    (wf : Wavefunction N)
    (h : Real.sqrt (normSumGrid (halfStep o wf.potential
      (Tinv (kineticRotate o (T (halfStep o wf.potential wf.psi))))) * o.dx * o.dx) ≠ 0) :
    normSumGrid (stepWavefunction o T Tinv wf).psi * o.dx * o.dx = 1 := by
  set ψ2 := halfStep o wf.potential (Tinv (kineticRotate o (T (halfStep o wf.potential wf.psi))))
    with hψ2
  have hS : 0 ≤ normSumGrid ψ2 := normSumGrid_nonneg ψ2
  have hA : 0 ≤ normSumGrid ψ2 * o.dx * o.dx := by
    have hrw : normSumGrid ψ2 * o.dx * o.dx = normSumGrid ψ2 * (o.dx * o.dx) := by ring
    rw [hrw]
    exact mul_nonneg hS (mul_self_nonneg _)
  have hApos : 0 < normSumGrid ψ2 * o.dx * o.dx := by
    rcases lt_or_eq_of_le hA with h' | h'
    · exact h'
    · rw [← h', Real.sqrt_zero] at h
      exact absurd rfl h
  have hnorm : 0 < Real.sqrt (normSumGrid ψ2 * o.dx * o.dx) := Real.sqrt_pos.mpr hApos
  have hstep : (stepWavefunction o T Tinv wf).psi = normalizeWavefunction o ψ2 := rfl
  rw [hstep, normalizeWavefunction]
  rw [if_pos hnorm]
  have hsum : normSumGrid (fun p =>
      (((1 / Real.sqrt (normSumGrid ψ2 * o.dx * o.dx) : ℝ) : ℂ) * ψ2 p)) =
      (1 / Real.sqrt (normSumGrid ψ2 * o.dx * o.dx)) ^ 2 * normSumGrid ψ2 := by
    rw [normSumGrid, normSumGrid, Finset.mul_sum]
    refine Finset.sum_congr rfl fun p _ => ?_
    simp only [Complex.mul_re, Complex.mul_im, Complex.ofReal_re, Complex.ofReal_im]
    ring
  rw [hsum]
  field_simp

theorem halfStep_dt_zero {N : ℕ} (o : WaveOptions) (h : o.dt = 0)
    (V : Fin N × Fin N → ℝ) (ψ : Grid N) : halfStep o V ψ = ψ := by
  funext p
  apply Complex.ext <;> simp [halfStep, h]

theorem kineticRotate_dt_zero {N : ℕ} (o : WaveOptions) (h : o.dt = 0) (ψ : Grid N) :
    kineticRotate o ψ = ψ := by
  funext p
  apply Complex.ext <;> simp [kineticRotate, h]

/-- Witness for C5 on the 1×1 grid, unit `dx`, zero `dt`, identity
transforms, constant field 1: the pre-normalization norm is 1 ≠ 0 and
the renormalized step has unit norm. -/
theorem step_renormalizes_witness :
    Real.sqrt (normSumGrid (halfStep oW wfW.potential
      (id (kineticRotate oW (id (halfStep oW wfW.potential wfW.psi))))) * oW.dx * oW.dx) ≠ 0 ∧
    normSumGrid (stepWavefunction oW id id wfW).psi * oW.dx * oW.dx = 1 := by
  have hdt : oW.dt = 0 := rfl
  have hinner : halfStep oW wfW.potential
      (id (kineticRotate oW (id (halfStep oW wfW.potential wfW.psi)))) = wfW.psi := by
    simp only [halfStep_dt_zero oW hdt, id_eq, kineticRotate_dt_zero oW hdt]
  have hS : normSumGrid wfW.psi = 1 := by
    rw [normSumGrid]
    simp [wfW]
  have hyp : Real.sqrt (normSumGrid (halfStep oW wfW.potential
      (id (kineticRotate oW (id (halfStep oW wfW.potential wfW.psi))))) * oW.dx * oW.dx) ≠ 0 := by
    rw [hinner, hS]
    show Real.sqrt (1 * (1 : ℝ) * 1) ≠ 0
    rw [mul_one, one_mul, Real.sqrt_one]
    exact one_ne_zero
  exact ⟨hyp, step_renormalizes oW id id wfW hyp⟩

theorem eC_add (N : ℕ) (m1 m2 : ℤ) : eC N (m1 + m2) = eC N m1 * eC N m2 := by
  rw [eC, eC, eC, ← Complex.exp_add]
  congr 1
  push_cast
  ring

theorem fwd_exp_eq (N : ℕ) (k x : Fin N × Fin N) :
    Complex.exp (fwdAngle N k x * Complex.I) = eC N (-(dotIdx k x : ℤ)) := by
  rw [eC, fwdAngle]
  congr 1
  push_cast
  ring

theorem inv_exp_eq (N : ℕ) (k x : Fin N × Fin N) :
    Complex.exp (invAngle N k x * Complex.I) = eC N ((dotIdx k x : ℤ)) := by
  rw [eC, invAngle]
  congr 1
  push_cast
  ring

theorem eC_pow (N : ℕ) (m : ℤ) (k : ℕ) : eC N ((k : ℤ) * m) = eC N m ^ k := by
  rw [eC, eC, ← Complex.exp_nat_mul]
  congr 1
  push_cast
  ring

/-- The root-of-unity geometric sum: `Σ_{k<N} e^{2πi·k·m/N}` is `N`
when `N ∣ m` and `0` otherwise. -/
theorem sum_eC (N : ℕ) (hN : 0 < N) (m : ℤ) :
    ∑ k : Fin N, eC N ((k : ℕ) * m) = if (N : ℤ) ∣ m then (N : ℂ) else 0 := by
  have hNC : ((N : ℕ) : ℂ) ≠ 0 := Nat.cast_ne_zero.mpr hN.ne'
  have hπ : (Real.pi : ℂ) ≠ 0 := Complex.ofReal_ne_zero.mpr Real.pi_ne_zero
  by_cases hdvd : (N : ℤ) ∣ m
  · rw [if_pos hdvd]
    obtain ⟨j, rfl⟩ := hdvd
    have hterm : ∀ k : Fin N, eC N ((k : ℕ) * ((N : ℤ) * j)) = 1 := by
      intro k
      rw [eC]
      have harg : 2 * (Real.pi : ℂ) * Complex.I * (((k : ℕ) * ((N : ℤ) * j) : ℤ) : ℂ) / N =
          (((k : ℕ) * j : ℤ) : ℂ) * (2 * Real.pi * Complex.I) := by
        push_cast
        field_simp
        ring
      rw [harg]
      exact Complex.exp_int_mul_two_pi_mul_I _
    simp only [hterm]
    simp
  · rw [if_neg hdvd]
    have hne1 : eC N m ≠ 1 := by
      intro h1
      rw [eC, Complex.exp_eq_one_iff] at h1
      obtain ⟨n, hn⟩ := h1
      apply hdvd
      have h2πI : (2 : ℂ) * Real.pi * Complex.I ≠ 0 :=
        mul_ne_zero (mul_ne_zero two_ne_zero hπ) Complex.I_ne_zero
      field_simp at hn
      have hcancel : (2 : ℂ) * Real.pi * Complex.I * m =
          2 * Real.pi * Complex.I * (n * N) := by
        linear_combination hn
      have h2 : (m : ℂ) = ((n * N : ℤ) : ℂ) := by
        push_cast
        exact mul_left_cancel₀ h2πI hcancel
      have h3 : m = n * N := by exact_mod_cast h2
      exact ⟨n, by rw [h3]; ring⟩
    have hpowN : eC N m ^ N = 1 := by
      rw [← eC_pow]
      rw [eC]
      have harg : 2 * (Real.pi : ℂ) * Complex.I * (((N : ℤ) * m : ℤ) : ℂ) / N =
          ((m : ℤ) : ℂ) * (2 * Real.pi * Complex.I) := by
        push_cast
        field_simp
        ring
      rw [harg]
      exact Complex.exp_int_mul_two_pi_mul_I _
    calc ∑ k : Fin N, eC N ((k : ℕ) * m) = ∑ k : Fin N, eC N m ^ (k : ℕ) := by
          refine Finset.sum_congr rfl fun k _ => ?_
          rw [← eC_pow]
      _ = ∑ i ∈ Finset.range N, eC N m ^ i := Fin.sum_univ_eq_sum_range _ N
      _ = (eC N m ^ N - 1) / (eC N m - 1) := geom_sum_eq hne1 N
      _ = 0 := by
          rw [hpowN]
          simp

/-- For grid indices, `N` divides the index difference exactly when
the indices agree. -/
theorem dvd_fin_sub_iff (N : ℕ) (a b : Fin N) :
    (N : ℤ) ∣ (((a : ℕ) : ℤ) - ((b : ℕ) : ℤ)) ↔ a = b := by
  constructor
  · intro h
    have ha := a.isLt
    have hb := b.isLt
    have h0 : (((a : ℕ) : ℤ) - ((b : ℕ) : ℤ)) = 0 := by
      refine Int.eq_zero_of_abs_lt_dvd h ?_
      rw [abs_lt]
      constructor <;> omega
    exact Fin.ext (by omega)
  · rintro rfl
    simp

/-- The fallback round trip: the inverse summation applied to the
forward summation multiplies every component by `N` (the forward
transform normalises by `1/N`, the inverse not at all, while the full
2D inversion needs `1/N²`). -/
theorem dft_roundtrip (N : ℕ) (hN : 0 < N) (ψ : Grid N) (x : Fin N × Fin N) :
    inverseFourierTransform N (directFourierTransform N ψ) x = (N : ℂ) * ψ x := by
  have hNC : ((N : ℕ) : ℂ) ≠ 0 := Nat.cast_ne_zero.mpr hN.ne'
  simp only [inverseFourierTransform, directFourierTransform, fwd_exp_eq, inv_exp_eq]
  have hterm : ∀ k : Fin N × Fin N,
      (∑ y : Fin N × Fin N, ψ y * eC N (-(dotIdx k y : ℤ))) / (N : ℂ) * eC N ((dotIdx k x : ℤ)) =
      ∑ y : Fin N × Fin N, ψ y * eC N ((dotIdx k x : ℤ) - (dotIdx k y : ℤ)) / N := by
    intro k
    rw [div_mul_eq_mul_div, Finset.sum_mul, Finset.sum_div]
    refine Finset.sum_congr rfl fun y _ => ?_
    have he : eC N (-(dotIdx k y : ℤ)) * eC N ((dotIdx k x : ℤ)) =
        eC N ((dotIdx k x : ℤ) - (dotIdx k y : ℤ)) := by
      rw [← eC_add]
      congr 1
      ring
    rw [mul_assoc, he]
  rw [Finset.sum_congr rfl fun k _ => hterm k]
  rw [Finset.sum_comm]
  have hker : ∀ y : Fin N × Fin N,
      ∑ k : Fin N × Fin N, ψ y * eC N ((dotIdx k x : ℤ) - (dotIdx k y : ℤ)) / N =
      ψ y * ((if x.1 = y.1 then (N : ℂ) else 0) * (if x.2 = y.2 then (N : ℂ) else 0)) / N := by
    intro y
    rw [← Finset.sum_div]
    rw [← Finset.mul_sum]
    have hfact : ∑ k : Fin N × Fin N, eC N ((dotIdx k x : ℤ) - (dotIdx k y : ℤ)) =
        (∑ k1 : Fin N, eC N ((k1 : ℕ) * (((x.1 : ℕ) : ℤ) - ((y.1 : ℕ) : ℤ)))) *
        (∑ k2 : Fin N, eC N ((k2 : ℕ) * (((x.2 : ℕ) : ℤ) - ((y.2 : ℕ) : ℤ)))) := by
      rw [Fintype.sum_prod_type, Finset.sum_mul_sum]
      refine Finset.sum_congr rfl fun k1 _ => Finset.sum_congr rfl fun k2 _ => ?_
      rw [← eC_add]
      congr 1
      simp only [dotIdx]
      push_cast
      ring
    rw [hfact, sum_eC N hN, sum_eC N hN]
    simp only [dvd_fin_sub_iff]
  rw [Finset.sum_congr rfl fun y _ => hker y]
  have hsingle : ∀ y : Fin N × Fin N,
      ψ y * ((if x.1 = y.1 then (N : ℂ) else 0) * (if x.2 = y.2 then (N : ℂ) else 0)) / N =
      if y = x then ψ y * ((N : ℂ) * N) / N else 0 := by
    intro y
    by_cases h1 : y = x
    · subst h1
      rw [if_pos rfl, if_pos rfl, if_pos rfl]
    · rw [if_neg h1]
      have hcomp : x.1 ≠ y.1 ∨ x.2 ≠ y.2 := by
        by_contra hc
        push_neg at hc
        exact h1 (Prod.ext hc.1.symm hc.2.symm)
      rcases hcomp with h | h
      · rw [if_neg h]
        ring
      · rw [if_neg h]
        ring
  rw [Finset.sum_congr rfl fun y _ => hsingle y]
  rw [Fintype.sum_ite_eq' x (fun y => ψ y * ((N : ℂ) * N) / N)]
  field_simp
  ring

/-- **C10 counterexample**: on the 2×2 grid the fallback inverse of
the fallback forward transform of the delta field is NOT the original
field — at index (0,0) it returns 2 instead of 1. -/
theorem fallback_roundtrip_counterexample :
    inverseFourierTransform 2 (directFourierTransform 2 psiDelta) (0, 0) ≠ psiDelta (0, 0) := by
  rw [dft_roundtrip 2 (by norm_num) psiDelta (0, 0)]
  have h : psiDelta (0, 0) = 1 := by simp [psiDelta]
  rw [h]
  norm_num

/-- **C10 (amended)**: the fallback round trip is correctness-
preserving only up to a uniform factor of `N`: for every `N×N` field,
`inverseFourierTransform ∘ directFourierTransform` multiplies every
component by `N` (the forward transform divides by `N` where full 2D
inversion requires `N²`, and the inverse does not normalise); the
original field is recovered only after dividing by `N`. -/
theorem fallback_roundtrip_scales_by_N (N : ℕ) (hN : 0 < N) (ψ : Grid N)
    (x : Fin N × Fin N) :
    inverseFourierTransform N (directFourierTransform N ψ) x = (N : ℂ) * ψ x :=
  dft_roundtrip N hN ψ x

/-- Witness for C10 (amended) on the 2×2 delta field. -/
theorem fallback_roundtrip_scales_witness :
    0 < 2 ∧ inverseFourierTransform 2 (directFourierTransform 2 psiDelta) (0, 0) =
      (2 : ℂ) * psiDelta (0, 0) :=
  ⟨by norm_num, fallback_roundtrip_scales_by_N 2 (by norm_num) psiDelta (0, 0)⟩

end Synapse
